import Mathlib

/-!
Verification of the AwesomeNAS middleware frontend against its design
specification.

The embedded code comes from
`src/dispatcher/src/frontend/static/js/controllers.js`:
the chunked upload loop (`sendBlob` / `uploadToSocket` of
`FileBrowserController`, with `BUFSIZE = 1048576`), the `pathJoin`
helper, and the `LoginController` login-status observation.

The session state machine, call dispatcher and event router live in
`middleware.DispatcherClient`, whose source is not part of this
repository snapshot; those parts are modelled from the specification
(each such definition carries a `Modelled from the spec:` comment).
-/

/-- `BUFSIZE` of `FileBrowserController`: the fixed 1 MiB chunk size. -/
abbrev BUFSIZE : Nat := 1048576

/-- One observable operation of the upload loop on the file connection:
`read a b` is the `FileReader` read of `file.slice(a, b)`, `send a b` is
`fileconn.send` of the bytes of that slice, and `sendTerminal` is the
zero-length `fileconn.send("")` end-of-stream marker. -/
inductive Op where
  | read (start stop : Nat)
  | send (start stop : Nat)
  | sendTerminal
deriving DecidableEq, Repr

/-- The effective stop offset of one `sendBlob` activation:
`var stop = parseInt(optStopByte) || file.size;`
`if (stop > file.size) { stop = file.size; }`.
On naturals, `parseInt` is the identity and `|| d` replaces `0` by `d`.
(The start offset is `parseInt(optStartByte) || 0`, the identity on
naturals.) -/
def effStop (size optStop : Nat) : Nat :=
  if (if optStop = 0 then size else optStop) > size then size
  else (if optStop = 0 then size else optStop)

theorem effStop_le (size t : Nat) : effStop size t ≤ size := by
  unfold effStop; split_ifs <;> omega

theorem effStop_min (size t : Nat) (h : 0 < t) : effStop size t = min t size := by
  unfold effStop; split_ifs <;> omega

theorem effStop_eq_of_le (size t : Nat) (h0 : 0 < t) (hle : t ≤ size) :
    effStop size t = t := by
  unfold effStop; split_ifs <;> omega

/-- The trace of operations performed by `sendBlob(fileconn, file, optStart,
optStop)` on a file of `size` bytes.  Each activation reads the slice
`[start, stop)`, sends it from the reader's `onloadend` callback, and then
either sends the empty terminal chunk (when `stop == file.size`) or recurses
exactly as the source does. -/
def sendBlob (size optStart optStop : Nat) : List Op :=
  Op.read optStart (effStop size optStop) ::
  Op.send optStart (effStop size optStop) ::
    (if effStop size optStop = size then [Op.sendTerminal]
     else if effStop size optStop + BUFSIZE < size then
       sendBlob size (effStop size optStop) (effStop size optStop + BUFSIZE)
     else sendBlob size (effStop size optStop) size)
termination_by size - effStop size optStop
decreasing_by
  · have h2 : effStop size (effStop size optStop + BUFSIZE)
        = effStop size optStop + BUFSIZE :=
      effStop_eq_of_le _ _ (by simp only [BUFSIZE]; omega) (by omega)
    simp only [BUFSIZE] at *
    omega
  · have h1 := effStop_le size optStop
    have h2 : effStop size size = size :=
      effStop_eq_of_le _ _ (by omega) (Nat.le_refl _)
    simp only [BUFSIZE] at *
    omega

/-- The operation trace of `uploadToSocket(file)` once the file connection
opens: `sendBlob(fileconn, file, 0, 0 + BUFSIZE)`. -/
def uploadOps (size : Nat) : List Op := sendBlob size 0 (0 + BUFSIZE)

/-- Whether an operation is a send on the file connection (a data chunk or
the terminal chunk). -/
def Op.isSend : Op → Bool
  | .send _ _ => true
  | .sendTerminal => true
  | .read _ _ => false

/-- All sends performed on the file connection during an upload. -/
def sends (size : Nat) : List Op := (uploadOps size).filter Op.isSend

/-- The byte range of a data-chunk send, if the operation is one. -/
def Op.dataRange : Op → Option (Nat × Nat)
  | .send a b => some (a, b)
  | _ => none

/-- The byte ranges of the data chunks sent during an upload, in send order. -/
def dataChunks (size : Nat) : List (Nat × Nat) :=
  (uploadOps size).filterMap Op.dataRange

/-- The ranges the chunk loop produces: chunk `k` covers
`[k·BUFSIZE, min ((k+1)·BUFSIZE) size)`; there are `⌈size/BUFSIZE⌉` chunks,
except that a zero-byte file still produces one (empty) chunk. -/
def chunkPairs (size : Nat) : List (Nat × Nat) :=
  (List.range (max ((size + BUFSIZE - 1) / BUFSIZE) 1)).map
    fun k => (k * BUFSIZE, min ((k + 1) * BUFSIZE) size)

/-- The read/send block of a single chunk. -/
def blockOps (p : Nat × Nat) : List Op := [Op.read p.1 p.2, Op.send p.1 p.2]

theorem sendBlob_spec (S : Nat) (hS : 0 < S) :
    ∀ m k t, 0 < t → min t S = min ((k + 1) * BUFSIZE) S →
      (S + BUFSIZE - 1) / BUFSIZE = k + (m + 1) →
      sendBlob S (k * BUFSIZE) t =
        ((List.range' k (m + 1)).map
          (fun j => (j * BUFSIZE, min ((j + 1) * BUFSIZE) S))).flatMap blockOps
        ++ [Op.sendTerminal] := by
  intro m
  induction m with
  | zero =>
    intro k t ht hmin hceil
    simp only [BUFSIZE] at hmin hceil ⊢
    have hx : k * 1048576 < S ∧ S ≤ (k + 1) * 1048576 := by omega
    have hstop : effStop S t = S := by
      rw [effStop_min S t ht]; omega
    have hminS : min ((k + 1) * 1048576) S = S := by omega
    unfold sendBlob
    simp only [BUFSIZE]
    rw [hstop]
    simp [blockOps, hminS]
  | succ m ih =>
    intro k t ht hmin hceil
    simp only [BUFSIZE] at hmin hceil ih ⊢
    have hx : (k + 1) * 1048576 < S := by omega
    have hstop : effStop S t = (k + 1) * 1048576 := by
      rw [effStop_min S t ht]; omega
    unfold sendBlob
    simp only [BUFSIZE]
    rw [hstop]
    have hne : ¬ ((k + 1) * 1048576 = S) := by omega
    rw [if_neg hne]
    have hrange : List.range' k (m + 1 + 1) = k :: List.range' (k + 1) (m + 1) := by
      rw [List.range'_succ]
    rw [hrange]
    simp only [List.map_cons, List.flatMap_cons, blockOps]
    have hle : (k + 1) * 1048576 ≤ S := by omega
    by_cases hcase : (k + 1) * 1048576 + 1048576 < S
    · rw [if_pos hcase]
      rw [ih (k + 1) ((k + 1) * 1048576 + 1048576) (by omega) (by omega) (by omega)]
      simp [Nat.min_eq_left hle]
    · rw [if_neg hcase]
      rw [ih (k + 1) S (by omega) (by omega) (by omega)]
      simp [Nat.min_eq_left hle]

/-- The full upload trace is exactly the read/send block of every expected
chunk, in offset order, followed by the single terminal send. -/
theorem uploadOps_eq (S : Nat) :
    uploadOps S = (chunkPairs S).flatMap blockOps ++ [Op.sendTerminal] := by
  rcases Nat.eq_zero_or_pos S with h0 | hS
  · subst h0
    rw [uploadOps]
    unfold sendBlob
    norm_num [effStop]
    decide
  · have hceil : 0 < (S + BUFSIZE - 1) / BUFSIZE := by
      simp only [BUFSIZE]; omega
    have hmax : max ((S + BUFSIZE - 1) / BUFSIZE) 1 = (S + BUFSIZE - 1) / BUFSIZE := by
      omega
    rw [uploadOps, chunkPairs, hmax]
    have hspec := sendBlob_spec S hS ((S + BUFSIZE - 1) / BUFSIZE - 1) 0 (0 + BUFSIZE)
      (by simp only [BUFSIZE]; omega) (by simp) (by omega)
    simp only [Nat.zero_mul] at hspec
    rw [hspec]
    have hsucc : (S + BUFSIZE - 1) / BUFSIZE - 1 + 1 = (S + BUFSIZE - 1) / BUFSIZE := by
      omega
    rw [hsucc, ← List.range_eq_range' _]

theorem filter_blockOps (l : List (Nat × Nat)) :
    (l.flatMap blockOps).filter Op.isSend = l.map fun p => Op.send p.1 p.2 := by
  induction l with
  | nil => rfl
  | cons p l ih => simp_all [blockOps, Op.isSend]

theorem filterMap_blockOps (l : List (Nat × Nat)) :
    (l.flatMap blockOps).filterMap Op.dataRange = l := by
  induction l with
  | nil => rfl
  | cons p l ih => simp_all [blockOps, Op.dataRange]

/-- The sends of an upload are exactly one data-chunk send per expected chunk
followed by the terminal send. -/
theorem sends_eq (S : Nat) :
    sends S = ((chunkPairs S).map fun p => Op.send p.1 p.2) ++ [Op.sendTerminal] := by
  rw [sends, uploadOps_eq, List.filter_append, filter_blockOps]
  simp [Op.isSend]

/-- The data chunks of an upload are exactly the expected chunk ranges. -/
theorem dataChunks_eq (S : Nat) : dataChunks S = chunkPairs S := by
  rw [dataChunks, uploadOps_eq, List.filterMap_append, filterMap_blockOps]
  simp [Op.dataRange]

theorem sum_chunk_sizes (S : Nat) :
    ∀ n, ((List.range n).map fun k => min ((k + 1) * BUFSIZE) S - k * BUFSIZE).sum
      = min (n * BUFSIZE) S := by
  intro n
  induction n with
  | zero => simp
  | succ n ih =>
    rw [List.range_succ, List.map_append, List.sum_append, ih]
    simp only [List.map_cons, List.map_nil, List.sum_cons, List.sum_nil, BUFSIZE]
    omega

/-- C1: for every file of size `S > 0` uploaded with chunk size
`BUFSIZE = 1048576`, the chunk loop sends exactly `⌈S/BUFSIZE⌉` non-empty
data chunks in increasing, contiguous offset order, whose sizes sum to `S`
(each of size `BUFSIZE` except possibly a smaller final chunk), followed by
exactly one empty terminal chunk; a 2.5 MiB file yields data chunks of
1 MiB, 1 MiB and 0.5 MiB and then the terminal chunk, in that order. -/
theorem upload_chunks_c1 (S : Nat) (hS : 0 < S) :
    dataChunks S =
      (List.range ((S + BUFSIZE - 1) / BUFSIZE)).map
        (fun k => (k * BUFSIZE, min ((k + 1) * BUFSIZE) S)) ∧
    (dataChunks S).length = (S + BUFSIZE - 1) / BUFSIZE ∧
    (∀ p ∈ dataChunks S, p.1 < p.2) ∧
    ((dataChunks S).map (fun p => p.2 - p.1)).sum = S ∧
    List.Pairwise (fun p q : Nat × Nat => p.1 < q.1) (dataChunks S) ∧
    (∀ p ∈ dataChunks S,
      p.2 - p.1 = BUFSIZE ∨ (p.2 = S ∧ 0 < p.2 - p.1 ∧ p.2 - p.1 ≤ BUFSIZE)) ∧
    uploadOps S = (dataChunks S).flatMap blockOps ++ [Op.sendTerminal] ∧
    dataChunks 2621440 = [(0, 1048576), (1048576, 2097152), (2097152, 2621440)] := by
  have hmax : max ((S + BUFSIZE - 1) / BUFSIZE) 1 = (S + BUFSIZE - 1) / BUFSIZE := by
    simp only [BUFSIZE]; omega
  have hchunks : dataChunks S =
      (List.range ((S + BUFSIZE - 1) / BUFSIZE)).map
        (fun k => (k * BUFSIZE, min ((k + 1) * BUFSIZE) S)) := by
    rw [dataChunks_eq, chunkPairs, hmax]
  refine ⟨hchunks, ?_, ?_, ?_, ?_, ?_, ?_, ?_⟩
  · rw [hchunks]; simp
  · rw [hchunks]
    intro p hp
    simp only [List.mem_map, List.mem_range] at hp
    obtain ⟨k, hk, rfl⟩ := hp
    simp only [BUFSIZE] at *
    omega
  · rw [hchunks, List.map_map]
    have h2 : (List.map
        ((fun p : Nat × Nat => p.2 - p.1) ∘ fun k => (k * BUFSIZE, min ((k + 1) * BUFSIZE) S))
        (List.range ((S + BUFSIZE - 1) / BUFSIZE))).sum
        = min (((S + BUFSIZE - 1) / BUFSIZE) * BUFSIZE) S :=
      sum_chunk_sizes S ((S + BUFSIZE - 1) / BUFSIZE)
    rw [h2]
    simp only [BUFSIZE]
    omega
  · rw [hchunks]
    rw [List.pairwise_map]
    apply (List.pairwise_lt_range _).imp
    intro a b hab
    simp only [BUFSIZE]
    omega
  · rw [hchunks]
    intro p hp
    simp only [List.mem_map, List.mem_range] at hp
    obtain ⟨k, hk, rfl⟩ := hp
    simp only [BUFSIZE] at *
    omega
  · rw [dataChunks_eq]
    exact uploadOps_eq S
  · rw [dataChunks_eq]
    decide

/-- C1 witness: the theorem applied to the 2.5 MiB file of the scenario. -/
theorem upload_chunks_c1_witness :
    0 < 2621440 ∧
    dataChunks 2621440 = [(0, 1048576), (1048576, 2097152), (2097152, 2621440)] :=
  ⟨by norm_num, (upload_chunks_c1 2621440 (by norm_num)).2.2.2.2.2.2.2⟩

/-- C2 counterexample: for a zero-byte file the loop performs two send
operations on the file connection (an empty data send, then the empty
terminal chunk), not one as the claim states. -/
theorem zero_upload_c2_cex :
    sends 0 = [Op.send 0 0, Op.sendTerminal] ∧ ¬ ((sends 0).length = 1) := by
  rw [sends_eq]
  constructor <;> decide

/-- C2 amended: for a zero-byte file (`S = 0`) the upload chunk loop performs
exactly two send operations, both with an empty payload: the send of the
empty data read of range `[0, 0)` followed by the empty terminal chunk; no
non-empty data chunk is ever sent. -/
theorem zero_upload_c2 :
    uploadOps 0 = [Op.read 0 0, Op.send 0 0, Op.sendTerminal] ∧
    sends 0 = [Op.send 0 0, Op.sendTerminal] ∧
    (sends 0).length = 2 ∧
    dataChunks 0 = [(0, 0)] ∧
    (∀ p ∈ dataChunks 0, p.2 - p.1 = 0) := by
  refine ⟨?_, ?_, ?_, ?_, ?_⟩
  · rw [uploadOps_eq]; decide
  · rw [sends_eq]; decide
  · rw [sends_eq]; decide
  · rw [dataChunks_eq]; decide
  · rw [dataChunks_eq]; decide

/-- Running in-flight chunk count: a read starts a chunk, the matching send
completes it; the accumulator tracks the current and the maximal count. -/
def maxInFlightAux : List Op → Nat → Nat → Nat
  | [], _, mx => mx
  | Op.read _ _ :: rest, cur, mx => maxInFlightAux rest (cur + 1) (max mx (cur + 1))
  | Op.send _ _ :: rest, cur, mx => maxInFlightAux rest (cur - 1) mx
  | Op.sendTerminal :: rest, cur, mx => maxInFlightAux rest cur mx

/-- The largest number of chunks simultaneously in flight during a trace. -/
def maxInFlight (ops : List Op) : Nat := maxInFlightAux ops 0 0

theorem maxInFlightAux_blocks (l : List (Nat × Nat)) :
    ∀ mx, mx ≤ 1 → maxInFlightAux (l.flatMap blockOps ++ [Op.sendTerminal]) 0 mx ≤ 1 := by
  induction l with
  | nil => intro mx h; simpa [maxInFlightAux] using h
  | cons p l ih =>
    intro mx h
    simp only [List.flatMap_cons, blockOps, List.cons_append, List.append_assoc,
      maxInFlightAux]
    exact ih (max mx 1) (by omega)

/-- C3: flow control is strictly sequential.  The upload trace consists of one
read/send block per chunk, in order — the read of chunk `k+1` is issued only
after the send of chunk `k` — so at every point of the trace at most one
chunk is in flight. -/
theorem sequential_c3 (S : Nat) :
    uploadOps S = (dataChunks S).flatMap blockOps ++ [Op.sendTerminal] ∧
    maxInFlight (uploadOps S) ≤ 1 := by
  constructor
  · rw [dataChunks_eq]; exact uploadOps_eq S
  · rw [maxInFlight, uploadOps_eq]
    exact maxInFlightAux_blocks (chunkPairs S) 0 (by omega)

/-- C4: a requested stop beyond the file size is clamped to the file size,
every activation's effective stop is at most the file size, and no upload
trace ever reads or sends a byte position at or past the file size. -/
theorem clamp_c4 (size optStop : Nat) (h : size < optStop) :
    effStop size optStop = size ∧
    (∀ t, effStop size t ≤ size) ∧
    (∀ a b, (Op.read a b ∈ uploadOps size ∨ Op.send a b ∈ uploadOps size) →
      b ≤ size ∧ ∀ i, a ≤ i → i < b → i < size) := by
  refine ⟨?_, effStop_le size, ?_⟩
  · unfold effStop
    split_ifs <;> omega
  · intro a b hab
    have hb : b ≤ size := by
      rw [uploadOps_eq] at hab
      rcases hab with hab | hab <;>
      · simp [blockOps, chunkPairs] at hab
        obtain ⟨k, hk, h1, h2⟩ := hab
        omega
    exact ⟨hb, fun i _ hib => by omega⟩

/-- C4 witness: a read of requested range `[0, 10)` on a 3-byte file is
clamped to stop at 3. -/
theorem clamp_c4_witness : 3 < 10 ∧ effStop 3 10 = 3 :=
  ⟨by norm_num, (clamp_c4 3 10 (by norm_num)).1⟩

/-- C9 counterexample: at `S = 0` the loop performs 2 sends, which exceeds
`⌈0/BUFSIZE⌉ + 1 = 1`, so the claimed bound fails for `S = 0`. -/
theorem loop_bound_c9_cex :
    ¬ ((sends 0).length ≤ (0 + BUFSIZE - 1) / BUFSIZE + 1) := by
  rw [sends_eq]
  decide

/-- C9 amended: the recursive chunk loop always terminates; for every size
`S` it performs exactly `max ⌈S/BUFSIZE⌉ 1 + 1` sends (so `⌈S/BUFSIZE⌉ + 1`
sends for `S > 0`, and 2 sends for `S = 0`) and then stops. -/
theorem loop_bound_c9 (S : Nat) :
    (sends S).length = max ((S + BUFSIZE - 1) / BUFSIZE) 1 + 1 := by
  rw [sends_eq]
  simp [chunkPairs]

/-- Greedy match of the regex `init · lst{1,}` at the head of `s`: the
literal characters of `init`, then a maximal non-empty run of `lst`.
Returns the number of characters consumed, or `none` when there is no
match at this position. -/
def matchLen (init : List Char) (lst : Char) (s : List Char) : Option Nat :=
  if init.isPrefixOf s then
    if ((s.drop init.length).takeWhile (fun x => x = lst)).length = 0 then none
    else some (init.length + ((s.drop init.length).takeWhile (fun x => x = lst)).length)
  else none

/-- Global replace of the regex `init · lst{1,}` by `rep` over `s`, scanning
left to right as JavaScript `String.replace` with a global regex does: at
each position try to match; on a match emit `rep` and continue right after
the match, otherwise emit the character and advance by one.  Each step
consumes at least one character, so fuel `s.length` (what `replaceGlobal`
passes) always suffices. -/
def replaceGlobalAux (init : List Char) (lst : Char) (rep : List Char) :
    Nat → List Char → List Char
  | 0, s => s
  | _ + 1, [] => []
  | f + 1, x :: xs =>
    match matchLen init lst (x :: xs) with
    | some L => rep ++ replaceGlobalAux init lst rep f ((x :: xs).drop L)
    | none => x :: replaceGlobalAux init lst rep f xs

def replaceGlobal (init : List Char) (lst : Char) (rep : List Char)
    (s : List Char) : List Char :=
  replaceGlobalAux init lst rep s.length s

/-- `pathJoin(parts, sep)` from `FileBrowserController`:
`var separator = sep || "/";`
`var replace = new RegExp(separator + "{1,}", "g");`
`return parts.join(separator).replace(replace, separator);`
In the regex `separator + "{1,}"` the separator's characters are atoms and
`{1,}` applies only to the last one; for separators made of literal
(non-metacharacter) characters — all separators this embedding covers —
the regex matches the separator's initial characters followed by a
non-empty run of its last character. -/
def pathJoin (parts : List String) (sep : String) : String :=
  let separator := if sep = "" then "/" else sep
  let joined := String.intercalate separator parts
  match separator.data.reverse with
  | [] => joined
  | lst :: initRev =>
    String.mk (replaceGlobal initRev.reverse lst separator.data joined.data)

/-- Drop every leading copy of `sep` from `s` (fuel-bounded). -/
def dropCopies (sep : List Char) : Nat → List Char → List Char
  | 0, s => s
  | f + 1, s =>
    if sep ≠ [] ∧ sep.isPrefixOf s then dropCopies sep f (s.drop sep.length) else s

/-- Collapse every maximal run of consecutive copies of `sep` in `s` to a
single copy (fuel-bounded; callers pass `s.length`). -/
def collapseRunsAux (sep : List Char) : Nat → List Char → List Char
  | 0, s => s
  | _ + 1, [] => []
  | f + 1, x :: xs =>
    if sep ≠ [] ∧ sep.isPrefixOf (x :: xs) then
      sep ++ collapseRunsAux sep f (dropCopies sep (x :: xs).length (x :: xs))
    else x :: collapseRunsAux sep f xs

def collapseRuns (sep s : List Char) : List Char := collapseRunsAux sep s.length s

/-- The path join the C10 claim describes, stated from its words: the parts
concatenated with the separator, with every maximal run of consecutive
separators in the result collapsed to a single separator. -/
def claimPathJoin (parts : List String) (sep : String) : String :=
  let separator := if sep = "" then "/" else sep
  String.mk (collapseRuns separator.data (String.intercalate separator parts).data)

/-- C10 counterexample: with the two-character separator `"ab"` and parts
`["x", "", "y"]`, the join is `"xababy"` which contains the doubled
separator `"abab"`; the claim demands the collapsed result `"xaby"`, but the
code's regex `ab{1,}` (only the final character is repeated) leaves
`"xababy"` unchanged. -/
theorem pathJoin_c10_cex :
    pathJoin ["x", "", "y"] "ab" = "xababy" ∧
    claimPathJoin ["x", "", "y"] "ab" = "xaby" ∧
    ("xababy" : String) ≠ "xaby" := by
  refine ⟨by decide, by decide, by decide⟩

/-- Collapse every maximal run of the character `c` to a single `c` — the
collapsing the claim describes, for a one-character separator. -/
def squeeze (c : Char) : List Char → List Char
  | [] => []
  | [x] => [x]
  | x :: y :: rest =>
    if x = c ∧ y = c then squeeze c (y :: rest) else x :: squeeze c (y :: rest)

/-- Whether two adjacent occurrences of `c` appear in the list. -/
def hasDouble (c : Char) : List Char → Bool
  | [] => false
  | [_] => false
  | x :: y :: rest => if x = c ∧ y = c then true else hasDouble c (y :: rest)

theorem drop_takeWhile_length (p : Char → Bool) (l : List Char) :
    l.drop (l.takeWhile p).length = l.dropWhile p := by
  induction l with
  | nil => rfl
  | cons x xs ih => by_cases h : p x <;> simp [List.takeWhile_cons, List.dropWhile_cons, h, ih]

theorem dropWhile_length_le (p : Char → Bool) (l : List Char) :
    (l.dropWhile p).length ≤ l.length := by
  induction l with
  | nil => exact Nat.le_refl _
  | cons x xs ih =>
    by_cases h : p x <;> simp [List.dropWhile_cons, h]
    omega

theorem squeeze_cons_of_ne (c x : Char) (h : ¬ (x = c)) (xs : List Char) :
    squeeze c (x :: xs) = x :: squeeze c xs := by
  cases xs with
  | nil => rfl
  | cons y ys =>
    rw [squeeze, if_neg]
    intro hc
    exact h hc.1

theorem squeeze_cons_run (c : Char) :
    ∀ xs, squeeze c (c :: xs) = c :: squeeze c (xs.dropWhile (fun y => y = c)) := by
  intro xs
  induction xs with
  | nil => rfl
  | cons y ys ih =>
    by_cases hy : y = c
    · subst hy
      rw [squeeze, if_pos ⟨rfl, rfl⟩, ih]
      simp [List.dropWhile_cons]
    · rw [squeeze, if_neg (fun hc => hy hc.2)]
      simp [List.dropWhile_cons, hy]

theorem squeeze_head (c : Char) :
    ∀ (r : List Char) (y : Char), ∃ t, squeeze c (y :: r) = y :: t := by
  intro r
  induction r with
  | nil => intro y; exact ⟨[], rfl⟩
  | cons z zs ih =>
    intro y
    by_cases h : y = c ∧ z = c
    · obtain ⟨t, ht⟩ := ih z
      refine ⟨t, ?_⟩
      rw [squeeze, if_pos h, ht, h.1, h.2]
    · exact ⟨squeeze c (z :: zs), by rw [squeeze, if_neg h]⟩

theorem hasDouble_squeeze (c : Char) :
    ∀ n s, List.length s ≤ n → hasDouble c (squeeze c s) = false := by
  intro n
  induction n with
  | zero =>
    intro s hs
    cases s with
    | nil => rfl
    | cons x xs => simp at hs
  | succ n ih =>
    intro s hs
    match s with
    | [] => rfl
    | [x] => rfl
    | x :: y :: r =>
      by_cases h : x = c ∧ y = c
      · rw [squeeze, if_pos h]
        exact ih (y :: r) (by simp at hs ⊢; omega)
      · rw [squeeze, if_neg h]
        obtain ⟨t, ht⟩ := squeeze_head c r y
        have hyr : hasDouble c (squeeze c (y :: r)) = false :=
          ih (y :: r) (by simp at hs ⊢; omega)
        rw [ht] at hyr ⊢
        rw [hasDouble, if_neg h]
        exact hyr

theorem replaceGlobalAux_single (c : Char) :
    ∀ f s, List.length s ≤ f → replaceGlobalAux [] c [c] f s = squeeze c s := by
  intro f
  induction f with
  | zero =>
    intro s hs
    cases s with
    | nil => rfl
    | cons x xs => simp at hs
  | succ f ih =>
    intro s hs
    cases s with
    | nil => rfl
    | cons x xs =>
      by_cases hx : x = c
      · have htake : (x :: xs).takeWhile (fun y => y = c)
            = x :: xs.takeWhile (fun y => y = c) := by
          simp [List.takeWhile_cons, hx]
        have hmatch : matchLen [] c (x :: xs)
            = some ((xs.takeWhile (fun y => y = c)).length + 1) := by
          simp [matchLen, htake]
        have hdrop : (x :: xs).drop ((xs.takeWhile (fun y => y = c)).length + 1)
            = xs.dropWhile (fun y => y = c) := by
          have h := drop_takeWhile_length (fun y => y = c) (x :: xs)
          rw [htake] at h
          simpa [List.dropWhile_cons, hx] using h
        simp only [replaceGlobalAux, hmatch, hdrop]
        rw [ih _ (Nat.le_trans (dropWhile_length_le _ xs) (by simp at hs; omega))]
        rw [hx, squeeze_cons_run]
        rfl
      · have htake0 : (x :: xs).takeWhile (fun y => y = c) = [] := by
          simp [List.takeWhile_cons, hx]
        have hmatch : matchLen [] c (x :: xs) = none := by
          simp [matchLen, htake0]
        simp only [replaceGlobalAux, hmatch]
        rw [ih xs (by simp at hs; omega)]
        rw [squeeze_cons_of_ne c x hx]

theorem replaceGlobal_single (c : Char) (s : List Char) :
    replaceGlobal [] c [c] s = squeeze c s :=
  replaceGlobalAux_single c s.length s (Nat.le_refl _)

/-- C10 amended: for every list of parts and every one-character separator
(in particular the default `"/"` used for every upload/download path built
from the stored working directory and a file name), `pathJoin` returns the
parts joined by the separator with every maximal run of consecutive
separators collapsed to a single separator, and consequently the result
contains no doubled separator.  (For multi-character separators the claim
fails: see the counterexample.) -/
theorem pathJoin_c10 (parts : List String) (c : Char) :
    pathJoin parts (String.mk [c])
      = String.mk (squeeze c (String.intercalate (String.mk [c]) parts).data) ∧
    hasDouble c (pathJoin parts (String.mk [c])).data = false := by
  have hne : (String.mk [c] : String) ≠ "" := by
    simp [String.ext_iff]
  have h1 : pathJoin parts (String.mk [c])
      = String.mk (squeeze c (String.intercalate (String.mk [c]) parts).data) := by
    simp only [pathJoin, if_neg hne]
    rw [show (String.mk [c]).data.reverse = [c] from rfl]
    dsimp only
    simp only [List.reverse_nil]
    rw [replaceGlobal_single]
  exact ⟨h1, by rw [h1]; exact hasDouble_squeeze c _ _ (Nat.le_refl _)⟩

/-- Modelled from the spec: the session states of §4.1.  The
`middleware.DispatcherClient` state machine itself is not part of this
repository snapshot; only its callers are. -/
inductive SessState where
  | disconnected
  | connecting
  | connected
  | authenticating
  | ready
  | failed
deriving DecidableEq, Repr

/-- Modelled from the spec: the session data of §3 used by the claims — the
connection state, the optional authentication token, and the pending-call
table (call ids with method names) with its id counter. -/
structure Session where
  state : SessState
  token : Option String
  pending : List (Nat × String)
  nextId : Nat
deriving DecidableEq, Repr

/-- Modelled from the spec §6: outbound frames the session can emit. -/
inductive Outb where
  | loginFrame (username secret : String)
  | callFrame (id : Nat) (method : String)
deriving DecidableEq, Repr

/-- Modelled from the spec §7: the error a call issued outside `Ready`
fails with. -/
inductive CallErr where
  | notReady
deriving DecidableEq, Repr

/-- Modelled from the spec §4.1 and §6: `Authenticating --authFailure-->
Disconnected`; the failure carries no token and is terminal for the login
attempt — no outbound frame is emitted, so there is no automatic retry. -/
def authFailure (s : Session) : Session × List Outb :=
  ({ s with state := SessState.disconnected, token := none }, [])

/-- Modelled from the spec §4.3: a call issued while not `Ready` fails
synchronously with a connection-state error, registers no PendingCall and
sends nothing; in `Ready` it allocates a fresh id, registers the PendingCall
and emits the call frame. -/
def call (s : Session) (method : String) :
    Except CallErr Nat × Session × List Outb :=
  if s.state = SessState.ready then
    (Except.ok s.nextId,
     { s with pending := s.pending ++ [(s.nextId, method)], nextId := s.nextId + 1 },
     [Outb.callFrame s.nextId method])
  else
    (Except.error CallErr.notReady, s, [])

/-- `LoginController.onLogin` from the source: success of a login attempt is
observed as `sock.token` being present (`if (!sock.token) { ... login
failed ... }`). -/
def loginStatus (s : Session) : Bool := s.token.isSome

/-- C5: on authentication failure the session transitions to `Disconnected`,
retains no token — exactly the condition `LoginController` observes to
report failure — emits no frame (no automatic retry with the same
credentials), and a subsequent call fails with `NotReadyError`, leaving the
session unchanged. -/
theorem auth_failure_c5 (s : Session) (m : String)
    (h : s.state = SessState.authenticating) :
    (authFailure s).1.state = SessState.disconnected ∧
    (authFailure s).1.token = none ∧
    (authFailure s).2 = [] ∧
    loginStatus (authFailure s).1 = false ∧
    call (authFailure s).1 m = (Except.error CallErr.notReady, (authFailure s).1, []) := by
  refine ⟨rfl, rfl, rfl, rfl, ?_⟩
  rw [call, if_neg]
  simp [authFailure]

/-- C5 witness: a concrete authenticating session with a stale token. -/
theorem auth_failure_c5_witness :
    (⟨SessState.authenticating, some "stale", [], 0⟩ : Session).state
      = SessState.authenticating ∧
    (authFailure ⟨SessState.authenticating, some "stale", [], 0⟩).1.state
      = SessState.disconnected ∧
    (authFailure ⟨SessState.authenticating, some "stale", [], 0⟩).1.token = none ∧
    (authFailure ⟨SessState.authenticating, some "stale", [], 0⟩).2 = [] ∧
    loginStatus (authFailure ⟨SessState.authenticating, some "stale", [], 0⟩).1 = false ∧
    call (authFailure ⟨SessState.authenticating, some "stale", [], 0⟩).1 "echo"
      = (Except.error CallErr.notReady,
         (authFailure ⟨SessState.authenticating, some "stale", [], 0⟩).1, []) :=
  ⟨rfl, auth_failure_c5 ⟨SessState.authenticating, some "stale", [], 0⟩ "echo" rfl⟩

/-- C8: in every session state other than `Ready`, a call fails immediately
(synchronously) with `NotReadyError`; the session — in particular its
pending-call table — is unchanged, and nothing is queued or sent. -/
theorem not_ready_call_c8 (s : Session) (m : String)
    (h : ¬ (s.state = SessState.ready)) :
    call s m = (Except.error CallErr.notReady, s, []) := by
  rw [call, if_neg h]

/-- C8 witness: a call on a concrete disconnected session. -/
theorem not_ready_call_c8_witness :
    ¬ ((⟨SessState.disconnected, none, [], 0⟩ : Session).state = SessState.ready) ∧
    call (⟨SessState.disconnected, none, [], 0⟩ : Session) "echo"
      = (Except.error CallErr.notReady, ⟨SessState.disconnected, none, [], 0⟩, []) :=
  ⟨by decide, not_ready_call_c8 ⟨SessState.disconnected, none, [], 0⟩ "echo" (by decide)⟩

/-- Modelled from the spec §4.4: split an event or pattern name into its
dot-separated segments. -/
def splitSegs : List Char → List (List Char)
  | [] => [[]]
  | ch :: rest =>
    match splitSegs rest with
    | [] => [[ch]]
    | seg :: segs => if ch = '.' then [] :: seg :: segs else (ch :: seg) :: segs

/-- Modelled from the spec §4.4: event pattern matching is segment-wise with
`*` as a full-segment wildcard — the pattern matches the name exactly when
they have the same number of segments and every pattern segment is `*` or
equals the corresponding name segment.  (The event router is part of
`middleware.DispatcherClient`, not of this repository snapshot.) -/
def matchPattern (pat name : String) : Bool :=
  let ps := splitSegs pat.data
  let ns := splitSegs name.data
  ps.length = ns.length &&
    (List.zip ps ns).all fun pn => pn.1 = ['*'] || pn.1 = pn.2

/-- C6: `task.*` matches `task.created` but neither `task.sub.created` nor
`task.subtask.created`; `*.changed` matches `volume.changed` but not the
single-segment name `changed`. -/
theorem pattern_match_c6 :
    matchPattern "task.*" "task.created" = true ∧
    matchPattern "task.*" "task.sub.created" = false ∧
    matchPattern "task.*" "task.subtask.created" = false ∧
    matchPattern "*.changed" "volume.changed" = true ∧
    matchPattern "*.changed" "changed" = false := by
  refine ⟨by decide, by decide, by decide, by decide, by decide⟩

/-- Modelled from the spec §4.3 and §6: the payload of an inbound
call-response frame, `{id, result}` or `{id, error}` (values abstracted). -/
inductive RPayload where
  | result (v : Nat)
  | rerror (code : Nat)
deriving DecidableEq, Repr

/-- Modelled from the spec §6: an inbound call-response frame. -/
structure Resp where
  id : Nat
  payload : RPayload
deriving DecidableEq, Repr

/-- Modelled from the spec §4.3: routing one response frame.  The dispatcher
state is the list of pending call ids together with the log of deliveries
`(id, payload)`; a frame whose id matches a pending call delivers its
payload to exactly that call and removes the PendingCall, any other frame is
dropped. -/
def routeResp (st : List Nat × List (Nat × RPayload)) (r : Resp) :
    List Nat × List (Nat × RPayload) :=
  if r.id ∈ st.1 then (st.1.erase r.id, st.2 ++ [(r.id, r.payload)]) else st

/-- Modelled from the spec §4.2: inbound frames are processed strictly in
arrival order. -/
def routeAll (pending : List Nat) (resps : List Resp) :
    List Nat × List (Nat × RPayload) :=
  resps.foldl routeResp (pending, [])

theorem routeAll_go (resps : List Resp) :
    ∀ (ids : List Nat) (acc : List (Nat × RPayload)), ids.Nodup →
      (resps.map Resp.id).Perm ids →
      resps.foldl routeResp (ids, acc)
        = ([], acc ++ resps.map fun r => (r.id, r.payload)) := by
  induction resps with
  | nil =>
    intro ids acc hnd hperm
    have hids : ids = [] := hperm.symm.eq_nil
    subst hids
    simp
  | cons r rest ih =>
    intro ids acc hnd hperm
    have hmem : r.id ∈ ids := hperm.mem_iff.mp (List.mem_cons_self _ _)
    have hperm' : (rest.map Resp.id).Perm (ids.erase r.id) :=
      (List.cons_perm_iff_perm_erase.mp hperm).2
    have hnd' : (ids.erase r.id).Nodup := hnd.erase _
    simp only [List.foldl_cons, routeResp, if_pos hmem]
    rw [ih _ _ hnd' hperm']
    simp

/-- C7: for every set of concurrent calls (pending ids, no duplicates) and
every arrival order of their response frames (the frames' ids form a
permutation of the pending ids), every frame resolves exactly the pending
call with its id and removes it — afterwards no call is pending, the
delivery log pairs each id with exactly the payload of its own frame, and
each pending id receives exactly one delivery. -/
theorem response_routing_c7 (ids : List Nat) (resps : List Resp)
    (hnd : ids.Nodup) (hperm : (resps.map Resp.id).Perm ids) :
    routeAll ids resps = ([], resps.map fun r => (r.id, r.payload)) ∧
    ∀ i ∈ ids,
      ((resps.map fun r => (r.id, r.payload)).countP fun p => p.1 = i) = 1 := by
  constructor
  · have h := routeAll_go resps ids [] hnd hperm
    simpa [routeAll] using h
  · intro i hi
    have h1 : ((resps.map fun r => (r.id, r.payload)).countP fun p => p.1 = i)
        = resps.countP fun r => r.id = i := by
      rw [List.countP_map]
      rfl
    have h2 : (resps.countP fun r => r.id = i) = (resps.map Resp.id).count i := by
      rw [List.count, List.countP_map]
      apply List.countP_congr
      intro r _
      by_cases hh : r.id = i
      · simp [hh]
      · simp [hh]
    have h3 : (resps.map Resp.id).count i = ids.count i := hperm.count_eq i
    have h4 : ids.count i = 1 := List.count_eq_one_of_mem hnd hi
    rw [h1, h2, h3, h4]

/-- C7 witness: three concurrent calls 1, 2, 3 answered out of order. -/
theorem response_routing_c7_witness :
    ([1, 2, 3] : List Nat).Nodup ∧
    (([⟨2, RPayload.result 5⟩, ⟨3, RPayload.rerror 7⟩, ⟨1, RPayload.result 9⟩] :
        List Resp).map Resp.id).Perm [1, 2, 3] ∧
    routeAll [1, 2, 3]
        [⟨2, RPayload.result 5⟩, ⟨3, RPayload.rerror 7⟩, ⟨1, RPayload.result 9⟩]
      = ([], [(2, RPayload.result 5), (3, RPayload.rerror 7), (1, RPayload.result 9)]) :=
  ⟨by decide, by decide,
    (response_routing_c7 [1, 2, 3]
      [⟨2, RPayload.result 5⟩, ⟨3, RPayload.rerror 7⟩, ⟨1, RPayload.result 9⟩]
      (by decide) (by decide)).1⟩
